import Mathlib

/-!
Verification of the accrual engine in `loan_logic.py` (function
`amount_due_with_payments` and its helpers), shallowly embedded in Lean.

Modelling conventions:
* calendar dates are integers (days since an arbitrary epoch); the Python
  expression `(d2 - d1).days` becomes integer subtraction `d2 - d1`, and
  `d + timedelta(days=k)` becomes `d + k`;
* monetary amounts and rates are rationals (`ℚ`), the exact-arithmetic model
  of Python's float computations; Python's `round(x, 2)` (round-half-to-even
  at 2 decimal places) is modelled exactly by `round2` below;
* the `1e-9` settlement/accrual threshold of the source is the rational
  `eps = 1 / 1000000000`;
* Python's stable sort by key `(paid_on, amount)` is modelled by insertion
  sort with the lexicographic order `payLE`.
-/

/-- A repayment record: `Payment(amount, paid_on)` from `loan_logic.py`. -/
structure Payment where
  amount : ℚ
  paid_on : ℤ
deriving DecidableEq

/-- The `1e-9` threshold used by `amount_due_with_payments` for the
"effectively zero" tests (`principal_rem > 1e-9`, settlement check). -/
def eps : ℚ := 1 / 1000000000

/-- Python's banker's rounding of a rational to the nearest integer:
round half to even, as performed by `round(x, n)` on exact values. -/
def bround (q : ℚ) : ℤ :=
  let n := ⌊q⌋
  let f := q - (n : ℚ)
  if f < 1/2 then n
  else if 1/2 < f then n + 1
  else if 2 ∣ n then n else n + 1

/-- `round(x, 2)` of the source, on the exact rational model. -/
def round2 (q : ℚ) : ℚ := ((bround (q * 100) : ℤ) : ℚ) / 100

/-- `_ceil_weeks(days)` from `loan_logic.py`: 0 for non-positive `days`,
otherwise `ceil(days / 7)` (computed here as `(days + 6) / 7` on naturals,
which agrees with the ceiling for positive `days`). -/
def ceilW (days : ℤ) : ℕ := (days.toNat + 6) / 7

/-- `overdue_weeks(as_of, due_on, disbursed_on)` from `loan_logic.py`:
number of started overdue weeks, 0 if no due date or not yet overdue. -/
def overdue_weeks (as_of : ℤ) (due_on : Option ℤ) : ℕ :=
  match due_on with
  | none => 0
  | some due => if as_of ≤ due then 0 else ceilW (as_of - due)

/-- The sort key order of `pays.sort(key=lambda x: (x.paid_on, x.amount))`:
lexicographic on `(paid_on, amount)`. -/
def payLE (a b : Payment) : Prop :=
  a.paid_on < b.paid_on ∨ (a.paid_on = b.paid_on ∧ a.amount ≤ b.amount)

instance : DecidableRel payLE := fun a b => by unfold payLE; infer_instance

instance : IsTotal Payment payLE := by
  constructor
  intro a b
  unfold payLE
  rcases lt_trichotomy a.paid_on b.paid_on with h | h | h
  · exact Or.inl (Or.inl h)
  · rcases le_total a.amount b.amount with h2 | h2
    · exact Or.inl (Or.inr ⟨h, h2⟩)
    · exact Or.inr (Or.inr ⟨h.symm, h2⟩)
  · exact Or.inr (Or.inl h)

instance : IsTrans Payment payLE := by
  constructor
  intro a b c hab hbc
  unfold payLE at *
  rcases hab with h1 | ⟨e1, l1⟩
  · rcases hbc with h2 | ⟨e2, _⟩
    · exact Or.inl (h1.trans h2)
    · exact Or.inl (e2 ▸ h1)
  · rcases hbc with h2 | ⟨e2, l2⟩
    · exact Or.inl (e1 ▸ h2)
    · exact Or.inr ⟨e1.trans e2, l1.trans l2⟩

/-- Resolution of `term_weeks` / `agreed_due_on` with "SAFE DEFAULTS"
(lines 104–110 of `loan_logic.py`).  Returns the pair
`(term_weeks, agreed_due_on)` after the three `if` branches:
* both absent: 1-week loan, due 7 days after disbursement;
* only `term_weeks` given: due `7 * term_weeks` days after disbursement;
* only `agreed_due_on` given: `term_weeks = max(1, _ceil_weeks(due - disbursed))`;
* both given: kept as supplied. -/
def resolveTerms (disbursed_on : ℤ) (term_weeks : Option ℤ) (agreed_due_on : Option ℤ) :
    ℤ × ℤ :=
  match agreed_due_on, term_weeks with
  | none, none => (1, disbursed_on + 7)
  | none, some tw => (tw, disbursed_on + 7 * tw)
  | some due, none => (max 1 ((ceilW (due - disbursed_on) : ℤ)), due)
  | some due, some tw => (tw, due)

/-- The fixed parameters of one engine run, after term resolution. -/
structure Cfg where
  weekly_interest_rate : ℚ
  late_step_rate : ℚ
  disbursed_on : ℤ
  agreed_due_on : ℤ
  term_weeks : ℤ

/-- The mutable state of `amount_due_with_payments`:
`principal_rem`, `accrued_interest`, `accrued_late` and the two
week counters `pre_charged_weeks` / `over_charged_weeks`. -/
@[ext]
structure St where
  principal_rem : ℚ
  accrued_interest : ℚ
  accrued_late : ℚ
  pre_charged : ℕ
  over_charged : ℕ
deriving DecidableEq

/-- One iteration of the pre-due while loop (lines 143–146): increment the
counter, and charge `principal_rem * weekly_interest_rate` of interest when
`principal_rem > 1e-9`. -/
def stepPre (c : Cfg) (s : St) : St :=
  { s with
    pre_charged := s.pre_charged + 1
    accrued_interest :=
      if eps < s.principal_rem then
        s.accrued_interest + s.principal_rem * c.weekly_interest_rate
      else s.accrued_interest }

/-- `n` iterations of the pre-due while loop. -/
def chargePre (c : Cfg) : ℕ → St → St
  | 0, s => s
  | n + 1, s => chargePre c n (stepPre c s)

/-- One iteration of the overdue while loop (lines 151–155): increment the
counter to `k`, and when `principal_rem > 1e-9` charge
`principal_rem * weekly_interest_rate` of interest and
`principal_rem * (k * late_step_rate)` of late penalty. -/
def stepOver (c : Cfg) (s : St) : St :=
  let k := s.over_charged + 1
  if eps < s.principal_rem then
    { s with
      over_charged := k
      accrued_interest := s.accrued_interest + s.principal_rem * c.weekly_interest_rate
      accrued_late := s.accrued_late + s.principal_rem * ((k : ℚ) * c.late_step_rate) }
  else { s with over_charged := k }

/-- `n` iterations of the overdue while loop. -/
def chargeOver (c : Cfg) : ℕ → St → St
  | 0, s => s
  | n + 1, s => chargeOver c n (stepOver c s)

/-- The pre-due week target of `_process_accrual_until` (lines 140–142):
`max(0, min(_ceil_weeks(min(target, agreed_due_on) - disbursed_on),
term_weeks or total))` — note Python's `or`: a zero `term_weeks` is falsy
and leaves the total uncapped. -/
def preTarget (c : Cfg) (target : ℤ) : ℤ :=
  let totalPre : ℤ := (ceilW (min target c.agreed_due_on - c.disbursed_on) : ℤ)
  if c.term_weeks = 0 then totalPre else max 0 (min totalPre c.term_weeks)

/-- The overdue week target of `_process_accrual_until` (line 150). -/
def overTarget (c : Cfg) (target : ℤ) : ℤ := (ceilW (target - c.agreed_due_on) : ℤ)

/-- `_process_accrual_until(target)` (lines 134–155): run the pre-due loop
until `pre_charged_weeks` reaches the pre-due target, then, when
`target > agreed_due_on`, run the overdue loop until `over_charged_weeks`
reaches the overdue target. -/
def accrualUntil (c : Cfg) (s : St) (target : ℤ) : St :=
  let s1 := chargePre c (preTarget c target - (s.pre_charged : ℤ)).toNat s
  if c.agreed_due_on < target then
    chargeOver c (overTarget c target - (s1.over_charged : ℤ)).toNat s1
  else s1

/-- `_apply_payment(amount)` (lines 122–132): waterfall allocation
interest → late → principal, residue ignored. -/
def applyPayment (s : St) (amount : ℚ) : St :=
  let take_i := min s.accrued_interest amount
  let amt1 := amount - take_i
  let take_l := min s.accrued_late amt1
  let amt2 := amt1 - take_l
  let take_p := min s.principal_rem amt2
  { s with
    accrued_interest := s.accrued_interest - take_i
    accrued_late := s.accrued_late - take_l
    principal_rem := s.principal_rem - take_p }

/-- The settlement test of line 172:
`principal_rem <= 1e-9 and (accrued_interest + accrued_late) <= 1e-9`. -/
def settled (s : St) : Prop :=
  s.principal_rem ≤ eps ∧ s.accrued_interest + s.accrued_late ≤ eps

instance : DecidablePred settled := fun s => by unfold settled; infer_instance

/-- The event walk of lines 158–178: for each distinct payment date in order,
accrue up to that date, apply all same-day payments, stop if settled;
if never settled, finish with an accrual pass up to `as_of`. -/
def walk (c : Cfg) (as_of : ℤ) : St → List Payment → St
  | s, [] => accrualUntil c s as_of
  | s, p :: rest =>
    let s1 := accrualUntil c s p.paid_on
    let same := p :: rest.takeWhile (fun q => q.paid_on == p.paid_on)
    let s2 := same.foldl (fun st q => applyPayment st q.amount) s1
    if settled s2 then s2
    else walk c as_of s2 (rest.dropWhile (fun q => q.paid_on == p.paid_on))
termination_by _ l => l.length
decreasing_by
  simp only [List.length_cons]
  exact Nat.lt_succ_of_le (List.dropWhile_sublist _).length_le

/-- The result record of `amount_due_with_payments` (lines 184–192);
`principal` is the legacy alias of `principal_receivable`. -/
structure AccrualResult where
  principal_receivable : ℚ
  accrued_interest_fees : ℚ
  outstanding : ℚ
  principal : ℚ
  interest : ℚ
  late_incremental : ℚ
deriving DecidableEq

/-- `amount_due_with_payments` (lines 59–192): filter payments to
`paid_on ≤ as_of`, sort by `(paid_on, amount)`, resolve terms, run the
event walk from the initial state, then round and clamp the outputs. -/
def amount_due_with_payments (principal : ℚ) (disbursed_on : ℤ) (as_of : ℤ)
    (payments : List Payment) (weekly_interest_rate : ℚ) (late_step_rate : ℚ)
    (term_weeks : Option ℤ) (agreed_due_on : Option ℤ) : AccrualResult :=
  let pays := List.insertionSort payLE
    (payments.filter (fun p => decide (p.paid_on ≤ as_of)))
  let r := resolveTerms disbursed_on term_weeks agreed_due_on
  let c : Cfg :=
    { weekly_interest_rate := weekly_interest_rate
      late_step_rate := late_step_rate
      disbursed_on := disbursed_on
      agreed_due_on := r.2
      term_weeks := r.1 }
  let s0 : St :=
    { principal_rem := principal, accrued_interest := 0, accrued_late := 0
      pre_charged := 0, over_charged := 0 }
  let sF := walk c as_of s0 pays
  let principal_receivable := round2 (max 0 sF.principal_rem)
  let accrued_interest_fees := round2 (max 0 (sF.accrued_interest + sF.accrued_late))
  { principal_receivable := principal_receivable
    accrued_interest_fees := accrued_interest_fees
    outstanding := round2 (principal_receivable + accrued_interest_fees)
    principal := principal_receivable
    interest := round2 sF.accrued_interest
    late_incremental := round2 sF.accrued_late }

/-- The state invariant behind the output bounds: the remaining principal
stays within `[0, P]` and the accrued amounts stay non-negative. -/
def InvP (P : ℚ) (s : St) : Prop :=
  0 ≤ s.principal_rem ∧ s.principal_rem ≤ P ∧
  0 ≤ s.accrued_interest ∧ 0 ≤ s.accrued_late

/-! ## Rounding lemmas -/

theorem bround_ge_floor (q : ℚ) : ⌊q⌋ ≤ bround q := by
  simp only [bround]
  split
  · exact le_refl _
  · split
    · omega
    · split <;> omega

theorem bround_le_floor_add_one (q : ℚ) : bround q ≤ ⌊q⌋ + 1 := by
  simp only [bround]
  split
  · omega
  · split
    · omega
    · split <;> omega

theorem bround_intCast (n : ℤ) : bround (n : ℚ) = n := by
  simp only [bround, Int.floor_intCast, sub_self]
  norm_num

theorem bround_nonneg (q : ℚ) (h : 0 ≤ q) : 0 ≤ bround q := by
  have h0 : 0 ≤ ⌊q⌋ := by
    have : ⌊(0 : ℚ)⌋ ≤ ⌊q⌋ := Int.floor_le_floor h
    simpa using this
  have := bround_ge_floor q
  omega

theorem bround_le_int (q : ℚ) (c : ℤ) (h : q ≤ (c : ℚ)) : bround q ≤ c := by
  have hfl : ⌊q⌋ ≤ c := by
    have h2 : ⌊q⌋ ≤ ⌊(c : ℚ)⌋ := Int.floor_le_floor h
    simpa using h2
  simp only [bround]
  split
  · exact hfl
  · rename_i hge
    push_neg at hge
    have hq : ((⌊q⌋ : ℚ)) < q := by
      have h0 : (0 : ℚ) < q - ⌊q⌋ := lt_of_lt_of_le (by norm_num) hge
      linarith
    have hlt : ⌊q⌋ < c := by
      by_contra hc
      push_neg at hc
      have hcc : (c : ℚ) ≤ (⌊q⌋ : ℚ) := by exact_mod_cast hc
      linarith
    split
    · omega
    · split <;> omega

theorem bround_mono (x y : ℚ) (h : x ≤ y) : bround x ≤ bround y := by
  rcases lt_or_eq_of_le (Int.floor_le_floor h) with hlt | heq
  · have h1 := bround_le_floor_add_one x
    have h2 := bround_ge_floor y
    omega
  · simp only [bround, heq]
    set m := ⌊y⌋ with hm
    by_cases ha : x - (m : ℚ) < 1/2
    · rw [if_pos ha]
      split
      · omega
      · split
        · omega
        · split <;> omega
    · rw [if_neg ha]
      push_neg at ha
      have hb : ¬ (y - (m : ℚ) < 1/2) := by push_neg; linarith
      rw [if_neg hb]
      by_cases ha2 : 1/2 < x - (m : ℚ)
      · rw [if_pos ha2]
        have hb2 : 1/2 < y - (m : ℚ) := by linarith
        rw [if_pos hb2]
      · rw [if_neg ha2]
        push_neg at ha2
        by_cases hb2 : 1/2 < y - (m : ℚ)
        · rw [if_pos hb2]
          split <;> omega
        · rw [if_neg hb2]

theorem round2_cents (n : ℤ) : round2 ((n : ℚ) / 100) = (n : ℚ) / 100 := by
  have h1 : ((n : ℚ) / 100) * 100 = (n : ℚ) := by field_simp
  simp only [round2, h1, bround_intCast]

theorem round2_exists_cents (q : ℚ) : ∃ n : ℤ, round2 q = (n : ℚ) / 100 :=
  ⟨bround (q * 100), rfl⟩

theorem round2_intCast (n : ℤ) : round2 (n : ℚ) = (n : ℚ) := by
  have h1 : (n : ℚ) = ((n * 100 : ℤ) : ℚ) / 100 := by push_cast; ring
  rw [h1, round2_cents]

theorem round2_zero : round2 0 = 0 := by
  have h := round2_intCast 0
  simpa using h

theorem round2_nonneg (q : ℚ) (h : 0 ≤ q) : 0 ≤ round2 q := by
  have hb : 0 ≤ bround (q * 100) := bround_nonneg _ (by positivity)
  have : (0 : ℚ) ≤ (bround (q * 100) : ℚ) := by exact_mod_cast hb
  simp only [round2]
  positivity

theorem round2_mono (x y : ℚ) (h : x ≤ y) : round2 x ≤ round2 y := by
  have hb : bround (x * 100) ≤ bround (y * 100) := bround_mono _ _ (by linarith)
  have hb' : ((bround (x * 100) : ℤ) : ℚ) ≤ ((bround (y * 100) : ℤ) : ℚ) := by exact_mod_cast hb
  simp only [round2]
  linarith

theorem round2_le_cents (q : ℚ) (c : ℤ) (h : q ≤ (c : ℚ) / 100) : round2 q ≤ (c : ℚ) / 100 := by
  have hb : bround (q * 100) ≤ c := bround_le_int _ _ (by linarith)
  have hb' : ((bround (q * 100) : ℤ) : ℚ) ≤ (c : ℚ) := by exact_mod_cast hb
  simp only [round2]
  linarith

/-! ## Closed forms of the accrual loops -/

theorem chargePre_spec (c : Cfg) (n : ℕ) (s : St) :
    chargePre c n s =
      { s with
        pre_charged := s.pre_charged + n
        accrued_interest := s.accrued_interest +
          (if eps < s.principal_rem then
            (n : ℚ) * (s.principal_rem * c.weekly_interest_rate) else 0) } := by
  induction n generalizing s with
  | zero => simp [chargePre]
  | succ n ih =>
    rw [chargePre, ih]
    by_cases h : eps < s.principal_rem <;>
      simp only [stepPre, h, if_true, if_false, ite_true, ite_false, St.mk.injEq] <;>
      and_intros <;>
      first
        | rfl
        | omega
        | (push_cast; try ring)

theorem chargeOver_spec (c : Cfg) (n : ℕ) (s : St) :
    chargeOver c n s =
      if eps < s.principal_rem then
        { s with
          over_charged := s.over_charged + n
          accrued_interest := s.accrued_interest +
            (n : ℚ) * (s.principal_rem * c.weekly_interest_rate)
          accrued_late := s.accrued_late +
            ((n : ℚ) * (s.over_charged : ℚ) + (n : ℚ) * ((n : ℚ) + 1) / 2) *
              (s.principal_rem * c.late_step_rate) }
      else { s with over_charged := s.over_charged + n } := by
  induction n generalizing s with
  | zero =>
    by_cases h : eps < s.principal_rem <;> simp [chargeOver, h]
  | succ n ih =>
    rw [chargeOver, ih]
    by_cases h : eps < s.principal_rem <;>
      simp only [stepOver, h, if_true, if_false, ite_true, ite_false, St.mk.injEq] <;>
      and_intros <;>
      first
        | rfl
        | omega
        | (push_cast; try ring)

/-! ## Further rounding helpers -/

theorem bround_eq (q : ℚ) (n : ℤ) (h : q = (n : ℚ)) : bround q = n := by
  rw [h, bround_intCast]

theorem round2_add_round2 (a b : ℚ) : round2 (round2 a + round2 b) = round2 a + round2 b := by
  obtain ⟨n1, h1⟩ := round2_exists_cents a
  obtain ⟨n2, h2⟩ := round2_exists_cents b
  rw [h1, h2]
  have hs : (n1 : ℚ) / 100 + (n2 : ℚ) / 100 = ((n1 + n2 : ℤ) : ℚ) / 100 := by
    push_cast
    ring
  rw [hs, round2_cents]

/-! ## Claim theorems -/

/-- C1: for every valid input (`principal ≥ 0`, rates `≥ 0`,
`as_of ≥ disbursed_on`), the result of `amount_due_with_payments` satisfies
`outstanding = principal_receivable + accrued_interest_fees` exactly, after
the 2-decimal rounding of each field. -/
theorem C1_outstanding_is_sum (principal : ℚ) (disbursed_on as_of : ℤ)
    (payments : List Payment) (wir lsr : ℚ) (tw due : Option ℤ)
    (hP : 0 ≤ principal) (hw : 0 ≤ wir) (hl : 0 ≤ lsr) (hd : disbursed_on ≤ as_of) :
    (amount_due_with_payments principal disbursed_on as_of payments wir lsr tw due).outstanding
      = (amount_due_with_payments principal disbursed_on as_of payments wir lsr tw
          due).principal_receivable
        + (amount_due_with_payments principal disbursed_on as_of payments wir lsr tw
          due).accrued_interest_fees := by
  simp only [amount_due_with_payments]
  exact round2_add_round2 _ _

/-- Witness for C1 at a concrete input: principal 100, disbursed day 0,
evaluated day 3, no payments, default rates. -/
theorem C1_outstanding_is_sum_witness :
    (0 : ℚ) ≤ 100 ∧ (0 : ℚ) ≤ 1/10 ∧ (0 : ℚ) ≤ 1/40 ∧ (0 : ℤ) ≤ 3 ∧
    (amount_due_with_payments 100 0 3 [] (1/10) (1/40) none none).outstanding
      = (amount_due_with_payments 100 0 3 [] (1/10) (1/40) none none).principal_receivable
        + (amount_due_with_payments 100 0 3 [] (1/10) (1/40) none none).accrued_interest_fees :=
  ⟨by norm_num, by norm_num, by norm_num, by norm_num,
    C1_outstanding_is_sum 100 0 3 [] (1/10) (1/40) none none (by norm_num) (by norm_num)
      (by norm_num) (by norm_num)⟩

/-- C3: principal 200000, disbursed on day 0 (2024-01-01), agreed due on
day 7 (2024-01-08), no payments, default rates, evaluated on day 21
(2024-01-22): total interest 60000, total late 15000, outstanding 275000. -/
theorem C3_overdue_escalation :
    (amount_due_with_payments 200000 0 21 [] (1/10) (1/40) none (some 7)).interest = 60000 ∧
    (amount_due_with_payments 200000 0 21 [] (1/10) (1/40) none (some 7)).late_incremental
      = 15000 ∧
    (amount_due_with_payments 200000 0 21 [] (1/10) (1/40) none (some 7)).outstanding
      = 275000 := by
  refine ⟨?_, ?_, ?_⟩ <;>
    simp only [amount_due_with_payments, resolveTerms, List.filter_nil, List.insertionSort,
      walk, accrualUntil, preTarget, overTarget, ceilW, chargePre_spec, chargeOver_spec] <;>
    norm_num [eps, round2] <;> simp
  · rw [bround_eq _ 6000000 (by norm_num)]
    norm_num
  · rw [bround_eq _ 1500000 (by norm_num)]
    norm_num
  · rw [bround_eq (20000000 : ℚ) 20000000 (by norm_num)]
    rw [show ((0:ℚ) ⊔ (20000 + 2 * 20000 + (2 + 1) * 5000)) * 100 = 7500000 by
        rw [sup_eq_max]; norm_num]
    rw [bround_eq (7500000 : ℚ) 7500000 (by norm_num)]
    norm_num
    rw [bround_eq _ 27500000 (by norm_num)]
    norm_num

/-- C5: a payment strictly smaller than the accrued interest at the moment
it is applied reduces only the interest, leaving late and principal
untouched; and the waterfall discards any residue beyond the total
outstanding: the total balance drops by exactly
`min amount (interest + late + principal)`. -/
theorem C5_partial_payment_waterfall (s : St) (amt : ℚ) (h0 : 0 ≤ amt)
    (hi : 0 ≤ s.accrued_interest) (hl : 0 ≤ s.accrued_late) (hp : 0 ≤ s.principal_rem) :
    (amt < s.accrued_interest →
      applyPayment s amt = { s with accrued_interest := s.accrued_interest - amt }) ∧
    (applyPayment s amt).principal_rem + (applyPayment s amt).accrued_interest
        + (applyPayment s amt).accrued_late
      = s.principal_rem + s.accrued_interest + s.accrued_late
        - min amt (s.principal_rem + s.accrued_interest + s.accrued_late) := by
  constructor
  · intro hlt
    have h1 : min s.accrued_interest amt = amt := min_eq_right hlt.le
    simp only [applyPayment, h1, sub_self, min_eq_right hl, min_eq_right hp, sub_zero]
  · simp only [applyPayment, min_def]
    split_ifs <;> ring_nf <;> linarith

/-- Witness for C5 at a concrete state: principal 1000, interest 500,
late 100, payment 200 < 500. -/
theorem C5_partial_payment_waterfall_witness :
    (0:ℚ) ≤ 200 ∧ (0:ℚ) ≤ 500 ∧ (0:ℚ) ≤ 100 ∧ (0:ℚ) ≤ 1000 ∧
    (((200:ℚ) < 500 →
      applyPayment ⟨1000, 500, 100, 0, 0⟩ 200 = ⟨1000, 500 - 200, 100, 0, 0⟩) ∧
    (applyPayment ⟨1000, 500, 100, 0, 0⟩ 200).principal_rem
        + (applyPayment ⟨1000, 500, 100, 0, 0⟩ 200).accrued_interest
        + (applyPayment ⟨1000, 500, 100, 0, 0⟩ 200).accrued_late
      = 1000 + 500 + 100 - min 200 (1000 + 500 + 100)) :=
  ⟨by norm_num, by norm_num, by norm_num, by norm_num,
    C5_partial_payment_waterfall ⟨1000, 500, 100, 0, 0⟩ 200 (by norm_num) (by norm_num)
      (by norm_num) (by norm_num)⟩

/-- C7: with both `term_weeks` and `agreed_due_on` omitted, the engine
returns exactly what it returns when `agreed_due_on = disbursed_on + 7`
is specified (a 1-week term). -/
theorem C7_default_term_derivation (principal : ℚ) (disbursed_on as_of : ℤ)
    (payments : List Payment) (wir lsr : ℚ) :
    amount_due_with_payments principal disbursed_on as_of payments wir lsr none none
      = amount_due_with_payments principal disbursed_on as_of payments wir lsr none
          (some (disbursed_on + 7)) := by
  have h : disbursed_on + 7 - disbursed_on = (7:ℤ) := by ring
  simp only [amount_due_with_payments, resolveTerms, h, ceilW]
  norm_num

/-- C8: a payment dated strictly after the evaluation date has no effect:
it is filtered out before the event walk. -/
theorem C8_future_payments_ignored (principal : ℚ) (disbursed_on as_of : ℤ)
    (l1 l2 : List Payment) (p : Payment) (wir lsr : ℚ) (tw due : Option ℤ)
    (hp : as_of < p.paid_on) :
    amount_due_with_payments principal disbursed_on as_of (l1 ++ p :: l2) wir lsr tw due
      = amount_due_with_payments principal disbursed_on as_of (l1 ++ l2) wir lsr tw due := by
  have hfilter : (l1 ++ p :: l2).filter (fun q => decide (q.paid_on ≤ as_of))
      = (l1 ++ l2).filter (fun q => decide (q.paid_on ≤ as_of)) := by
    simp [List.filter_append, List.filter_cons, not_le.mpr hp]
  simp only [amount_due_with_payments, hfilter]

/-- Witness for C8: a payment on day 5 does not change the day-0 result. -/
theorem C8_future_payments_ignored_witness :
    (0:ℤ) < 5 ∧
    amount_due_with_payments 100 0 0 ([] ++ ⟨50, 5⟩ :: []) (1/10) (1/40) none none
      = amount_due_with_payments 100 0 0 ([] ++ []) (1/10) (1/40) none none :=
  ⟨by norm_num,
    C8_future_payments_ignored 100 0 0 [] [] ⟨50, 5⟩ (1/10) (1/40) none none (by norm_num)⟩

/-! ## Invariant preservation -/

theorem chargePre_inv (P : ℚ) (c : Cfg) (n : ℕ) (s : St) (h : InvP P s)
    (hw : 0 ≤ c.weekly_interest_rate) : InvP P (chargePre c n s) := by
  obtain ⟨h1, h2, h3, h4⟩ := h
  rw [chargePre_spec]
  refine ⟨h1, h2, ?_, h4⟩
  have hnn : 0 ≤ (if eps < s.principal_rem then
      (n : ℚ) * (s.principal_rem * c.weekly_interest_rate) else 0) := by
    split
    · rename_i hc
      have hp0 : 0 ≤ s.principal_rem := h1
      positivity
    · exact le_refl 0
  dsimp only
  linarith

theorem chargeOver_inv (P : ℚ) (c : Cfg) (n : ℕ) (s : St) (h : InvP P s)
    (hw : 0 ≤ c.weekly_interest_rate) (hls : 0 ≤ c.late_step_rate) :
    InvP P (chargeOver c n s) := by
  obtain ⟨h1, h2, h3, h4⟩ := h
  rw [chargeOver_spec]
  split
  · rename_i hc
    refine ⟨h1, h2, ?_, ?_⟩
    · have hnn : 0 ≤ (n : ℚ) * (s.principal_rem * c.weekly_interest_rate) := by positivity
      dsimp only
      linarith
    · have hnn : 0 ≤ ((n : ℚ) * (s.over_charged : ℚ) + (n : ℚ) * ((n : ℚ) + 1) / 2) *
          (s.principal_rem * c.late_step_rate) := by positivity
      dsimp only
      linarith
  · exact ⟨h1, h2, h3, h4⟩

theorem accrualUntil_inv (P : ℚ) (c : Cfg) (s : St) (t : ℤ) (h : InvP P s)
    (hw : 0 ≤ c.weekly_interest_rate) (hls : 0 ≤ c.late_step_rate) :
    InvP P (accrualUntil c s t) := by
  simp only [accrualUntil]
  split
  · exact chargeOver_inv P c _ _ (chargePre_inv P c _ s h hw) hw hls
  · exact chargePre_inv P c _ s h hw

theorem applyPayment_inv (P : ℚ) (s : St) (amt : ℚ) (h : InvP P s) (h0 : 0 ≤ amt) :
    InvP P (applyPayment s amt) := by
  obtain ⟨h1, h2, h3, h4⟩ := h
  have t1 : min s.accrued_interest amt ≤ amt := min_le_right _ _
  have t2 : min s.accrued_late (amt - min s.accrued_interest amt)
      ≤ amt - min s.accrued_interest amt := min_le_right _ _
  have t3 : 0 ≤ amt - min s.accrued_interest amt := by linarith
  have t4 : 0 ≤ amt - min s.accrued_interest amt
      - min s.accrued_late (amt - min s.accrued_interest amt) := by linarith
  have t5 : 0 ≤ min s.principal_rem (amt - min s.accrued_interest amt
      - min s.accrued_late (amt - min s.accrued_interest amt)) := le_min h1 t4
  have t6 : min s.principal_rem (amt - min s.accrued_interest amt
      - min s.accrued_late (amt - min s.accrued_interest amt)) ≤ s.principal_rem :=
    min_le_left _ _
  have t7 : min s.accrued_interest amt ≤ s.accrued_interest := min_le_left _ _
  have t8 : min s.accrued_late (amt - min s.accrued_interest amt) ≤ s.accrued_late :=
    min_le_left _ _
  simp only [applyPayment, InvP]
  refine ⟨by linarith, by linarith, by linarith, by linarith⟩

theorem foldl_applyPayment_inv (P : ℚ) (l : List Payment) (s : St) (h : InvP P s)
    (hl : ∀ q ∈ l, 0 ≤ q.amount) :
    InvP P (l.foldl (fun st q => applyPayment st q.amount) s) := by
  induction l generalizing s with
  | nil => exact h
  | cons p rest ih =>
    simp only [List.foldl_cons]
    exact ih _ (applyPayment_inv P s p.amount h (hl p (by simp)))
      (fun q hq => hl q (List.mem_cons_of_mem p hq))

theorem walk_inv (P : ℚ) (c : Cfg) (as_of : ℤ)
    (hw : 0 ≤ c.weekly_interest_rate) (hls : 0 ≤ c.late_step_rate) :
    ∀ (n : ℕ) (l : List Payment), l.length ≤ n → ∀ s : St, InvP P s →
      (∀ q ∈ l, 0 ≤ q.amount) → InvP P (walk c as_of s l) := by
  intro n
  induction n with
  | zero =>
    intro l hlen s hs hq
    have hnil : l = [] := List.eq_nil_of_length_eq_zero (Nat.le_zero.mp hlen)
    subst hnil
    rw [walk]
    exact accrualUntil_inv P c s as_of hs hw hls
  | succ n ih =>
    intro l hlen s hs hq
    match l with
    | [] =>
      rw [walk]
      exact accrualUntil_inv P c s as_of hs hw hls
    | p :: rest =>
      rw [walk]
      have hs1 : InvP P (accrualUntil c s p.paid_on) :=
        accrualUntil_inv P c s p.paid_on hs hw hls
      have hsame : ∀ q ∈ p :: rest.takeWhile (fun q => q.paid_on == p.paid_on),
          0 ≤ q.amount := by
        intro q hq2
        rcases List.mem_cons.mp hq2 with h | h
        · subst h; exact hq q (by simp)
        · exact hq q (List.mem_cons_of_mem _ ((List.takeWhile_sublist _).mem h))
      have hs2 : InvP P ((p :: rest.takeWhile (fun q => q.paid_on == p.paid_on)).foldl
          (fun st q => applyPayment st q.amount) (accrualUntil c s p.paid_on)) :=
        foldl_applyPayment_inv P _ _ hs1 hsame
      split
      · exact hs2
      · apply ih
        · have := (List.dropWhile_sublist
            (fun q => q.paid_on == p.paid_on) (l := rest)).length_le
          simp only [List.length_cons] at hlen
          omega
        · exact hs2
        · intro q hq2
          exact hq q (List.mem_cons_of_mem _ ((List.dropWhile_sublist _).mem hq2))

theorem walk_output_bounds (c : Cfg) (as_of : ℤ) (P : ℚ) (m : ℤ) (l : List Payment)
    (hP : 0 ≤ P) (hm : P = (m : ℚ) / 100) (hw : 0 ≤ c.weekly_interest_rate)
    (hls : 0 ≤ c.late_step_rate) (hl : ∀ q ∈ l, 0 ≤ q.amount) :
    round2 (max 0 (walk c as_of ⟨P, 0, 0, 0, 0⟩ l).principal_rem) ≤ P ∧
    0 ≤ round2 (max 0 (walk c as_of ⟨P, 0, 0, 0, 0⟩ l).principal_rem) ∧
    0 ≤ round2 (max 0 ((walk c as_of ⟨P, 0, 0, 0, 0⟩ l).accrued_interest
        + (walk c as_of ⟨P, 0, 0, 0, 0⟩ l).accrued_late)) ∧
    0 ≤ round2 (round2 (max 0 (walk c as_of ⟨P, 0, 0, 0, 0⟩ l).principal_rem)
        + round2 (max 0 ((walk c as_of ⟨P, 0, 0, 0, 0⟩ l).accrued_interest
          + (walk c as_of ⟨P, 0, 0, 0, 0⟩ l).accrued_late))) := by
  have hinv : InvP P (walk c as_of ⟨P, 0, 0, 0, 0⟩ l) :=
    walk_inv P c as_of hw hls l.length l (le_refl _)
      ⟨P, 0, 0, 0, 0⟩ ⟨hP, le_refl _, le_refl _, le_refl _⟩ hl
  obtain ⟨i1, i2, i3, i4⟩ := hinv
  have hmax : max 0 (walk c as_of ⟨P, 0, 0, 0, 0⟩ l).principal_rem
      = (walk c as_of ⟨P, 0, 0, 0, 0⟩ l).principal_rem := max_eq_right i1
  have b1 : round2 (max 0 (walk c as_of ⟨P, 0, 0, 0, 0⟩ l).principal_rem) ≤ P := by
    rw [hmax, hm]
    exact round2_le_cents _ m (by rw [← hm]; exact i2)
  have b2 : 0 ≤ round2 (max 0 (walk c as_of ⟨P, 0, 0, 0, 0⟩ l).principal_rem) :=
    round2_nonneg _ (le_max_left 0 _)
  have b3 : 0 ≤ round2 (max 0 ((walk c as_of ⟨P, 0, 0, 0, 0⟩ l).accrued_interest
      + (walk c as_of ⟨P, 0, 0, 0, 0⟩ l).accrued_late)) :=
    round2_nonneg _ (le_max_left 0 _)
  exact ⟨b1, b2, b3, round2_nonneg _ (by linarith)⟩

/-- C2 (amended): for valid inputs with a whole-cent principal and
non-negative payment amounts, `principal_receivable` never exceeds the
original principal, and `principal_receivable`, `accrued_interest_fees`
and `outstanding` are all non-negative (the latter three without needing
the whole-cent hypothesis). -/
theorem C2_output_bounds (principal : ℚ) (m : ℤ) (disbursed_on as_of : ℤ)
    (payments : List Payment) (wir lsr : ℚ) (tw due : Option ℤ)
    (hP : 0 ≤ principal) (hm : principal = (m : ℚ) / 100)
    (hw : 0 ≤ wir) (hls : 0 ≤ lsr) (hd : disbursed_on ≤ as_of)
    (hpay : ∀ q ∈ payments, 0 ≤ q.amount) :
    (amount_due_with_payments principal disbursed_on as_of payments wir lsr tw
        due).principal_receivable ≤ principal ∧
    0 ≤ (amount_due_with_payments principal disbursed_on as_of payments wir lsr tw
        due).principal_receivable ∧
    0 ≤ (amount_due_with_payments principal disbursed_on as_of payments wir lsr tw
        due).accrued_interest_fees ∧
    0 ≤ (amount_due_with_payments principal disbursed_on as_of payments wir lsr tw
        due).outstanding := by
  simp only [amount_due_with_payments]
  apply walk_output_bounds _ _ _ m _ hP hm hw hls
  intro q hq
  have hq2 : q ∈ payments.filter (fun p => decide (p.paid_on ≤ as_of)) :=
    ((List.perm_insertionSort payLE _).mem_iff).mp hq
  exact hpay q (List.mem_of_mem_filter hq2)

/-- Witness for C2 at principal 100000 (= 10000000 cents), one payment. -/
theorem C2_output_bounds_witness :
    (0:ℚ) ≤ 100000 ∧ (100000 : ℚ) = ((10000000 : ℤ) : ℚ) / 100 ∧ (0:ℚ) ≤ 1/10 ∧
    (0:ℚ) ≤ 1/40 ∧ (0:ℤ) ≤ 10 ∧ (∀ q ∈ [(⟨500, 3⟩ : Payment)], 0 ≤ q.amount) ∧
    ((amount_due_with_payments 100000 0 10 [⟨500, 3⟩] (1/10) (1/40) none
        none).principal_receivable ≤ 100000 ∧
    0 ≤ (amount_due_with_payments 100000 0 10 [⟨500, 3⟩] (1/10) (1/40) none
        none).principal_receivable ∧
    0 ≤ (amount_due_with_payments 100000 0 10 [⟨500, 3⟩] (1/10) (1/40) none
        none).accrued_interest_fees ∧
    0 ≤ (amount_due_with_payments 100000 0 10 [⟨500, 3⟩] (1/10) (1/40) none
        none).outstanding) :=
  ⟨by norm_num, by norm_num, by norm_num, by norm_num, by norm_num,
    by intro q hq; simp at hq; subst hq; norm_num,
    C2_output_bounds 100000 10000000 0 10 [⟨500, 3⟩] (1/10) (1/40) none none
      (by norm_num) (by norm_num) (by norm_num) (by norm_num) (by norm_num)
      (by intro q hq; simp at hq; subst hq; norm_num)⟩

/-- Counterexample to C2 as stated: a sub-cent principal of 0.006 rounds up
to a `principal_receivable` of 0.01, strictly above the original principal. -/
theorem C2_counterexample :
    (0:ℚ) ≤ 3/500 ∧ (0:ℚ) ≤ 1/10 ∧ (0:ℚ) ≤ 1/40 ∧ (0:ℤ) ≤ 0 ∧
    ¬ ((amount_due_with_payments (3/500) 0 0 [] (1/10) (1/40) none
        none).principal_receivable ≤ 3/500) := by
  refine ⟨by norm_num, by norm_num, by norm_num, by norm_num, ?_⟩
  simp only [amount_due_with_payments, resolveTerms, List.filter_nil, List.insertionSort,
    walk, accrualUntil, preTarget, overTarget, ceilW, chargePre_spec, chargeOver_spec]
  norm_num [eps, round2]
  have hb : bround ((3:ℚ)/5) = 1 := by
    simp only [bround]
    norm_num
  rw [hb]
  norm_num

/-! ## Zero accrual before any week has started -/

theorem ceilW_nonpos (d : ℤ) (h : d ≤ 0) : ceilW d = 0 := by
  unfold ceilW
  rw [Int.toNat_of_nonpos h]

theorem preTarget_eq_zero (c : Cfg) (t : ℤ) (h : min t c.agreed_due_on - c.disbursed_on ≤ 0) :
    preTarget c t = 0 := by
  simp only [preTarget, ceilW_nonpos _ h]
  split
  · rfl
  · rcases le_total c.term_weeks 0 with h2 | h2
    · rw [min_eq_right (by exact_mod_cast h2)]
      exact max_eq_left h2
    · rw [min_eq_left (by exact_mod_cast h2)]
      norm_num

/-- When the target date strictly precedes both the disbursement date and
the due date, `_process_accrual_until` charges nothing at all. -/
theorem accrualUntil_noop (c : Cfg) (s : St) (t : ℤ)
    (hpre : min t c.agreed_due_on - c.disbursed_on ≤ 0)
    (hover : ¬ (c.agreed_due_on < t)) :
    accrualUntil c s t = s := by
  simp only [accrualUntil, preTarget_eq_zero c t hpre]
  rw [if_neg hover]
  have hz : ((0 : ℤ) - (s.pre_charged : ℤ)).toNat = 0 :=
    Int.toNat_of_nonpos (by omega)
  rw [hz]
  rfl

/-- C9 (amended): for `as_of` strictly before `disbursed_on`, a resolved due
date at or after disbursement, a whole-cent principal `≥ 0`, and payments
that are all dated after `as_of` (in particular an empty list), the engine
returns zero accrual: `accrued_interest_fees = 0`,
`principal_receivable = principal` and `outstanding = principal`. -/
theorem C9_as_of_before_disbursement (principal : ℚ) (m : ℤ) (disbursed_on as_of : ℤ)
    (payments : List Payment) (wir lsr : ℚ) (tw due : Option ℤ)
    (hP : 0 ≤ principal) (hm : principal = (m : ℚ) / 100)
    (hb : as_of < disbursed_on)
    (hdue : disbursed_on ≤ (resolveTerms disbursed_on tw due).2)
    (hfut : ∀ q ∈ payments, as_of < q.paid_on) :
    (amount_due_with_payments principal disbursed_on as_of payments wir lsr tw
        due).accrued_interest_fees = 0 ∧
    (amount_due_with_payments principal disbursed_on as_of payments wir lsr tw
        due).principal_receivable = principal ∧
    (amount_due_with_payments principal disbursed_on as_of payments wir lsr tw
        due).outstanding = principal := by
  have hfilter : payments.filter (fun p => decide (p.paid_on ≤ as_of)) = [] := by
    rw [List.filter_eq_nil]
    intro q hq
    simp [not_le.mpr (hfut q hq)]
  simp only [amount_due_with_payments, hfilter, List.insertionSort]
  rw [walk]
  rw [accrualUntil_noop _ _ _ (by simp only []; omega)
    (by simp only []; omega)]
  simp only []
  rw [max_eq_right hP]
  have haif : max (0:ℚ) (0 + 0) = 0 := by norm_num
  rw [haif, round2_zero]
  rw [hm, round2_cents]
  refine ⟨rfl, rfl, ?_⟩
  rw [add_zero, round2_cents]

/-- Witness for C9: principal 100, disbursed day 5, evaluated day 0. -/
theorem C9_as_of_before_disbursement_witness :
    (0:ℚ) ≤ 100 ∧ (100:ℚ) = ((10000 : ℤ) : ℚ) / 100 ∧ (0:ℤ) < 5 ∧
    (5:ℤ) ≤ (resolveTerms 5 none none).2 ∧
    (∀ q ∈ ([] : List Payment), (0:ℤ) < q.paid_on) ∧
    ((amount_due_with_payments 100 5 0 [] (1/10) (1/40) none
        none).accrued_interest_fees = 0 ∧
    (amount_due_with_payments 100 5 0 [] (1/10) (1/40) none
        none).principal_receivable = 100 ∧
    (amount_due_with_payments 100 5 0 [] (1/10) (1/40) none
        none).outstanding = 100) :=
  ⟨by norm_num, by norm_num, by norm_num, by norm_num [resolveTerms], by simp,
    C9_as_of_before_disbursement 100 10000 5 0 [] (1/10) (1/40) none none
      (by norm_num) (by norm_num) (by norm_num) (by norm_num [resolveTerms]) (by simp)⟩

/-- Counterexample to C9 as stated: with a sub-cent principal of 0.006 and
`as_of` before `disbursed_on`, `principal_receivable` is the rounded 0.01,
not the principal itself. -/
theorem C9_counterexample :
    (0:ℤ) < 1 ∧
    ¬ ((amount_due_with_payments (3/500) 1 0 [] (1/10) (1/40) none
        none).principal_receivable = 3/500) := by
  refine ⟨by norm_num, ?_⟩
  simp only [amount_due_with_payments, resolveTerms, List.filter_nil, List.insertionSort,
    walk, accrualUntil, preTarget, overTarget, ceilW, chargePre_spec, chargeOver_spec]
  norm_num [eps, round2]
  have hb : bround ((3:ℚ)/5) = 1 := by
    simp only [bround]
    norm_num
  rw [hb]
  norm_num

/-- C10: a payment dated before disbursement (and on or before `as_of`) is
still applied; with no week started it goes entirely to principal, so a
pre-disbursement payment of at least the principal settles the loan at
once: every output of the engine is 0 for any later `as_of`, and no
interest is ever accrued. -/
theorem C10_predisbursement_payment (principal : ℚ) (disbursed_on as_of : ℤ)
    (p : Payment) (wir lsr : ℚ) (tw due : Option ℤ)
    (hP : 0 ≤ principal)
    (hpd : p.paid_on < disbursed_on) (hpa : p.paid_on ≤ as_of)
    (hamt : principal ≤ p.amount)
    (hdue : disbursed_on ≤ (resolveTerms disbursed_on tw due).2) :
    (amount_due_with_payments principal disbursed_on as_of [p] wir lsr tw
        due).outstanding = 0 ∧
    (amount_due_with_payments principal disbursed_on as_of [p] wir lsr tw
        due).principal_receivable = 0 ∧
    (amount_due_with_payments principal disbursed_on as_of [p] wir lsr tw
        due).interest = 0 ∧
    (amount_due_with_payments principal disbursed_on as_of [p] wir lsr tw
        due).accrued_interest_fees = 0 := by
  have hamt0 : 0 ≤ p.amount := le_trans hP hamt
  have hfilter : [p].filter (fun q => decide (q.paid_on ≤ as_of)) = [p] := by
    simp [hpa]
  have hsort : List.insertionSort payLE [p] = [p] := by
    simp [List.insertionSort]
  simp only [amount_due_with_payments, hfilter, hsort, walk, List.takeWhile_nil,
    List.foldl_cons, List.foldl_nil, List.dropWhile_nil]
  rw [accrualUntil_noop _ _ _ (by simp only []; omega) (by simp only []; omega)]
  have happ : applyPayment ⟨principal, 0, 0, 0, 0⟩ p.amount = ⟨0, 0, 0, 0, 0⟩ := by
    simp only [applyPayment, min_eq_left hamt0, sub_zero, min_eq_left hamt, sub_self]
  rw [happ]
  rw [if_pos (by constructor <;> norm_num [eps] : settled ⟨0, 0, 0, 0, 0⟩)]
  norm_num [round2_zero]

/-- Witness for C10: principal 100000 fully prepaid on day −3, disbursed
day 0, evaluated day 50. -/
theorem C10_predisbursement_payment_witness :
    (0:ℚ) ≤ 100000 ∧ (-3:ℤ) < 0 ∧ (-3:ℤ) ≤ 50 ∧ (100000:ℚ) ≤ 100000 ∧
    (0:ℤ) ≤ (resolveTerms 0 none none).2 ∧
    ((amount_due_with_payments 100000 0 50 [⟨100000, -3⟩] (1/10) (1/40) none
        none).outstanding = 0 ∧
    (amount_due_with_payments 100000 0 50 [⟨100000, -3⟩] (1/10) (1/40) none
        none).principal_receivable = 0 ∧
    (amount_due_with_payments 100000 0 50 [⟨100000, -3⟩] (1/10) (1/40) none
        none).interest = 0 ∧
    (amount_due_with_payments 100000 0 50 [⟨100000, -3⟩] (1/10) (1/40) none
        none).accrued_interest_fees = 0) :=
  ⟨by norm_num, by norm_num, by norm_num, by norm_num, by norm_num [resolveTerms],
    C10_predisbursement_payment 100000 0 50 ⟨100000, -3⟩ (1/10) (1/40) none none
      (by norm_num) (by norm_num) (by norm_num) (by norm_num) (by norm_num [resolveTerms])⟩

/-- C4: principal 100000, disbursed day 0, due day 7, a single payment of
110000 on day 7 exactly clears week-1 interest (10000) plus principal, so
for every `as_of ≥ 7` the engine reports `outstanding = 0` and
`principal_receivable = 0`: settlement stops all further accrual. -/
theorem C4_full_early_payment (as_of : ℤ) (h7 : (7:ℤ) ≤ as_of) :
    (amount_due_with_payments 100000 0 as_of [⟨110000, 7⟩] (1/10) (1/40) none
        (some 7)).outstanding = 0 ∧
    (amount_due_with_payments 100000 0 as_of [⟨110000, 7⟩] (1/10) (1/40) none
        (some 7)).principal_receivable = 0 := by
  have hfilter : [(⟨110000, 7⟩ : Payment)].filter (fun q => decide (q.paid_on ≤ as_of))
      = [⟨110000, 7⟩] := by simp [h7]
  have hsort : List.insertionSort payLE [(⟨110000, 7⟩ : Payment)] = [⟨110000, 7⟩] := by
    simp [List.insertionSort]
  simp only [amount_due_with_payments, hfilter, hsort, resolveTerms, walk,
    List.takeWhile_nil, List.foldl_cons, List.foldl_nil, List.dropWhile_nil,
    accrualUntil, preTarget, overTarget, ceilW, chargePre_spec, chargeOver_spec,
    applyPayment]
  have hb0 : bround (0:ℚ) = 0 := bround_eq _ 0 (by norm_num)
  norm_num [eps, settled, min_def, round2, hb0]

/-- Witness for C4 at `as_of` = 30, three weeks past the settling payment. -/
theorem C4_full_early_payment_witness :
    (7:ℤ) ≤ 30 ∧
    ((amount_due_with_payments 100000 0 30 [⟨110000, 7⟩] (1/10) (1/40) none
        (some 7)).outstanding = 0 ∧
    (amount_due_with_payments 100000 0 30 [⟨110000, 7⟩] (1/10) (1/40) none
        (some 7)).principal_receivable = 0) :=
  ⟨by norm_num, C4_full_early_payment 30 (by norm_num)⟩

/-! ## Monotonicity of accrual in the evaluation date -/

theorem chargePre_principal (c : Cfg) (n : ℕ) (s : St) :
    (chargePre c n s).principal_rem = s.principal_rem := by
  rw [chargePre_spec]

theorem chargePre_over (c : Cfg) (n : ℕ) (s : St) :
    (chargePre c n s).over_charged = s.over_charged := by
  rw [chargePre_spec]

theorem chargePre_il (c : Cfg) (n : ℕ) (s : St) :
    (chargePre c n s).accrued_interest + (chargePre c n s).accrued_late
      = s.accrued_interest + s.accrued_late +
        (if eps < s.principal_rem then
          (n : ℚ) * (s.principal_rem * c.weekly_interest_rate) else 0) := by
  rw [chargePre_spec]
  dsimp only
  ring

theorem chargeOver_il (c : Cfg) (n : ℕ) (s : St) :
    (chargeOver c n s).accrued_interest + (chargeOver c n s).accrued_late
      = s.accrued_interest + s.accrued_late +
        (if eps < s.principal_rem then
          (n : ℚ) * (s.principal_rem * c.weekly_interest_rate)
            + ((n : ℚ) * (s.over_charged : ℚ) + (n : ℚ) * ((n : ℚ) + 1) / 2) *
              (s.principal_rem * c.late_step_rate)
        else 0) := by
  rw [chargeOver_spec]
  split
  · dsimp only
    ring
  · dsimp only
    ring

theorem ceilW_mono (d1 d2 : ℤ) (h : d1 ≤ d2) : ceilW d1 ≤ ceilW d2 := by
  unfold ceilW
  have : d1.toNat ≤ d2.toNat := Int.toNat_le_toNat h
  omega

theorem preTarget_mono (c : Cfg) (t1 t2 : ℤ) (h : t1 ≤ t2) :
    preTarget c t1 ≤ preTarget c t2 := by
  simp only [preTarget]
  have hc : (ceilW (min t1 c.agreed_due_on - c.disbursed_on) : ℤ)
      ≤ (ceilW (min t2 c.agreed_due_on - c.disbursed_on) : ℤ) := by
    exact_mod_cast ceilW_mono _ _ (by omega)
  split
  · exact hc
  · exact max_le_max (le_refl 0) (min_le_min hc (le_refl _))

theorem overTarget_mono (c : Cfg) (t1 t2 : ℤ) (h : t1 ≤ t2) :
    overTarget c t1 ≤ overTarget c t2 := by
  simp only [overTarget]
  exact_mod_cast ceilW_mono _ _ (by omega)

theorem overD_mono (p w l o x y : ℚ) (hw : 0 ≤ w) (hl : 0 ≤ l) (hp : 0 ≤ p)
    (ho : 0 ≤ o) (hx : 0 ≤ x) (hxy : x ≤ y) :
    x * (p * w) + (x * o + x * (x + 1) / 2) * (p * l)
      ≤ y * (p * w) + (y * o + y * (y + 1) / 2) * (p * l) := by
  have h1 : x * (p * w) ≤ y * (p * w) :=
    mul_le_mul_of_nonneg_right hxy (by positivity)
  have h2 : x * o + x * (x + 1) / 2 ≤ y * o + y * (y + 1) / 2 := by nlinarith
  have h4 : (0:ℚ) ≤ p * l := by positivity
  nlinarith [mul_le_mul_of_nonneg_right h2 h4]

theorem accrualUntil_il_mono (c : Cfg) (s : St) (t1 t2 : ℤ) (h : t1 ≤ t2)
    (hw : 0 ≤ c.weekly_interest_rate) (hls : 0 ≤ c.late_step_rate) :
    (accrualUntil c s t1).accrued_interest + (accrualUntil c s t1).accrued_late
      ≤ (accrualUntil c s t2).accrued_interest + (accrualUntil c s t2).accrued_late := by
  have hn1 : (((preTarget c t1 - (s.pre_charged : ℤ)).toNat : ℕ) : ℚ)
      ≤ (((preTarget c t2 - (s.pre_charged : ℤ)).toNat : ℕ) : ℚ) := by
    exact_mod_cast Int.toNat_le_toNat (by have := preTarget_mono c t1 t2 h; omega)
  simp only [accrualUntil]
  by_cases h2 : c.agreed_due_on < t2
  · by_cases h1 : c.agreed_due_on < t1
    · rw [if_pos h1, if_pos h2]
      rw [chargeOver_il, chargeOver_il, chargePre_il, chargePre_il,
        chargePre_principal, chargePre_principal, chargePre_over, chargePre_over]
      by_cases hp : eps < s.principal_rem
      · simp only [if_pos hp]
        have hp0 : (0:ℚ) ≤ s.principal_rem := le_of_lt (lt_trans (by norm_num [eps]) hp)
        have hpw0 : (0:ℚ) ≤ s.principal_rem * c.weekly_interest_rate := mul_nonneg hp0 hw
        have hm : (((overTarget c t1 - (s.over_charged : ℤ)).toNat : ℕ) : ℚ)
            ≤ (((overTarget c t2 - (s.over_charged : ℤ)).toNat : ℕ) : ℚ) := by
          exact_mod_cast Int.toNat_le_toNat
            (by have := overTarget_mono c t1 t2 h; omega)
        have hD := overD_mono s.principal_rem c.weekly_interest_rate c.late_step_rate
          ((s.over_charged : ℕ) : ℚ)
          (((overTarget c t1 - (s.over_charged : ℤ)).toNat : ℕ) : ℚ)
          (((overTarget c t2 - (s.over_charged : ℤ)).toNat : ℕ) : ℚ)
          hw hls hp0 (by positivity) (by positivity) hm
        have hI := mul_le_mul_of_nonneg_right hn1 hpw0
        linarith
      · simp only [if_neg hp]
        linarith
    · rw [if_neg h1, if_pos h2]
      rw [chargeOver_il, chargePre_il, chargePre_il, chargePre_principal,
        chargePre_over]
      by_cases hp : eps < s.principal_rem
      · simp only [if_pos hp]
        have hp0 : (0:ℚ) ≤ s.principal_rem := le_of_lt (lt_trans (by norm_num [eps]) hp)
        have hpw0 : (0:ℚ) ≤ s.principal_rem * c.weekly_interest_rate := mul_nonneg hp0 hw
        have hpl0 : (0:ℚ) ≤ s.principal_rem * c.late_step_rate := mul_nonneg hp0 hls
        have hI := mul_le_mul_of_nonneg_right hn1 hpw0
        have hD1 : (0:ℚ) ≤ (((overTarget c t2 - (s.over_charged : ℤ)).toNat : ℕ) : ℚ)
            * (s.principal_rem * c.weekly_interest_rate) :=
          mul_nonneg (by positivity) hpw0
        have hD2 : (0:ℚ) ≤ ((((overTarget c t2 - (s.over_charged : ℤ)).toNat : ℕ) : ℚ)
              * ((s.over_charged : ℕ) : ℚ)
            + (((overTarget c t2 - (s.over_charged : ℤ)).toNat : ℕ) : ℚ)
              * ((((overTarget c t2 - (s.over_charged : ℤ)).toNat : ℕ) : ℚ) + 1) / 2)
            * (s.principal_rem * c.late_step_rate) :=
          mul_nonneg (by positivity) hpl0
        linarith
      · simp only [if_neg hp]
        linarith
  · have h1 : ¬ c.agreed_due_on < t1 := fun hh => h2 (lt_of_lt_of_le hh h)
    rw [if_neg h1, if_neg h2]
    rw [chargePre_il, chargePre_il]
    by_cases hp : eps < s.principal_rem
    · simp only [if_pos hp]
      have hp0 : (0:ℚ) ≤ s.principal_rem := le_of_lt (lt_trans (by norm_num [eps]) hp)
      have hpw0 : (0:ℚ) ≤ s.principal_rem * c.weekly_interest_rate := mul_nonneg hp0 hw
      have hI := mul_le_mul_of_nonneg_right hn1 hpw0
      linarith
    · simp only [if_neg hp]
      linarith

theorem walk_il_mono (c : Cfg) (a1 a2 : ℤ) (h12 : a1 ≤ a2)
    (hw : 0 ≤ c.weekly_interest_rate) (hls : 0 ≤ c.late_step_rate) :
    ∀ (n : ℕ) (l : List Payment), l.length ≤ n → ∀ s : St,
      (walk c a1 s l).accrued_interest + (walk c a1 s l).accrued_late
        ≤ (walk c a2 s l).accrued_interest + (walk c a2 s l).accrued_late := by
  intro n
  induction n with
  | zero =>
    intro l hlen s
    have hnil : l = [] := List.eq_nil_of_length_eq_zero (Nat.le_zero.mp hlen)
    subst hnil
    rw [walk, walk]
    exact accrualUntil_il_mono c s a1 a2 h12 hw hls
  | succ n ih =>
    intro l hlen s
    match l with
    | [] =>
      rw [walk, walk]
      exact accrualUntil_il_mono c s a1 a2 h12 hw hls
    | p :: rest =>
      rw [walk, walk]
      split
      · exact le_refl _
      · apply ih
        have := (List.dropWhile_sublist
          (fun q => q.paid_on == p.paid_on) (l := rest)).length_le
        simp only [List.length_cons] at hlen
        omega

/-- C6 (amended): with the effective payment set held fixed — every payment
dated on or before `as_of_1` — and non-negative rates, increasing the
evaluation date never decreases `accrued_interest_fees`; in particular when
the loan settles both values are 0 and the bound still holds. -/
theorem C6_aif_monotone (principal : ℚ) (disbursed_on a1 a2 : ℤ)
    (payments : List Payment) (wir lsr : ℚ) (tw due : Option ℤ)
    (hw : 0 ≤ wir) (hls : 0 ≤ lsr) (h12 : a1 ≤ a2)
    (hpay : ∀ q ∈ payments, q.paid_on ≤ a1) :
    (amount_due_with_payments principal disbursed_on a1 payments wir lsr tw
        due).accrued_interest_fees
      ≤ (amount_due_with_payments principal disbursed_on a2 payments wir lsr tw
        due).accrued_interest_fees := by
  have hf1 : payments.filter (fun q => decide (q.paid_on ≤ a1)) = payments := by
    rw [List.filter_eq_self]
    intro q hq
    simpa using hpay q hq
  have hf2 : payments.filter (fun q => decide (q.paid_on ≤ a2)) = payments := by
    rw [List.filter_eq_self]
    intro q hq
    simpa using le_trans (hpay q hq) h12
  simp only [amount_due_with_payments, hf1, hf2]
  apply round2_mono
  apply max_le_max (le_refl 0)
  exact walk_il_mono _ a1 a2 h12 hw hls _ _ (le_refl _) _

/-- Witness for C6: loan of 100000 due day 7 with a payment on day 3,
compared between days 6 and 20. -/
theorem C6_aif_monotone_witness :
    (0:ℚ) ≤ 1/10 ∧ (0:ℚ) ≤ 1/40 ∧ (6:ℤ) ≤ 20 ∧
    (∀ q ∈ [(⟨5000, 3⟩ : Payment)], q.paid_on ≤ (6:ℤ)) ∧
    (amount_due_with_payments 100000 0 6 [⟨5000, 3⟩] (1/10) (1/40) none
        (some 7)).accrued_interest_fees
      ≤ (amount_due_with_payments 100000 0 20 [⟨5000, 3⟩] (1/10) (1/40) none
        (some 7)).accrued_interest_fees :=
  ⟨by norm_num, by norm_num, by norm_num, by intro q hq; simp at hq; subst hq; norm_num,
    C6_aif_monotone 100000 0 6 20 [⟨5000, 3⟩] (1/10) (1/40) none (some 7)
      (by norm_num) (by norm_num) (by norm_num)
      (by intro q hq; simp at hq; subst hq; norm_num)⟩

/-- Counterexample to C6 as stated: with the payment list held fixed, a
payment dated between the two evaluation dates joins the computation at the
later date and clears the accrued interest, so `accrued_interest_fees`
drops from 10000 (day 6) to 0 (day 7) with no settlement. -/
theorem C6_counterexample :
    (6:ℤ) ≤ 7 ∧
    ¬ ((amount_due_with_payments 100000 0 6 [⟨10000, 7⟩] (1/10) (1/40) none
        (some 7)).accrued_interest_fees
      ≤ (amount_due_with_payments 100000 0 7 [⟨10000, 7⟩] (1/10) (1/40) none
        (some 7)).accrued_interest_fees) := by
  refine ⟨by norm_num, ?_⟩
  have hf1 : [(⟨10000, 7⟩ : Payment)].filter (fun q => decide (q.paid_on ≤ (6:ℤ)))
      = [] := by simp
  have hf2 : [(⟨10000, 7⟩ : Payment)].filter (fun q => decide (q.paid_on ≤ (7:ℤ)))
      = [⟨10000, 7⟩] := by simp
  simp only [amount_due_with_payments, hf1, hf2, List.insertionSort, List.orderedInsert,
    resolveTerms, walk, List.takeWhile_nil, List.foldl_cons, List.foldl_nil,
    List.dropWhile_nil, accrualUntil, preTarget, overTarget, ceilW, chargePre_spec,
    chargeOver_spec, applyPayment]
  have hb0 : bround (0:ℚ) = 0 := bround_eq _ 0 (by norm_num)
  norm_num [eps, settled, min_def, round2, hb0]
  rw [bround_eq _ 1000000 (by norm_num)]
  norm_num
